import Mathlib

/-!
Verification of the playbook-converter: a graph-structuring algorithm that
turns a branching task graph into a structured sequence, plus renderers.
The definitions below are a shallow embedding of the program: dictionaries
become association lists, the unbounded recursion and the while loop become
fuel-indexed recursion returning an explicit error for exhausted fuel, and
a failed dictionary lookup (a KeyError) becomes an explicit error value.
-/

namespace Playbook

abbrev NodeId := String
abbrev Label := String

/-- Node: an identifier plus an ordered mapping from branch label to an
ordered list of successor identifiers (class Node of the program). -/
structure GNode where
  node_id : NodeId
  next_nodes : List (Label × List NodeId)
  deriving Repr, DecidableEq

/-- A graph: the ordered dictionary from node identifier to node. -/
abbrev Graph := List (NodeId × GNode)

/-- Association-list lookup, modelling Python dictionary indexing. -/
def alookup {β : Type} : List (NodeId × β) → NodeId → Option β
  | [], _ => none
  | (a, b) :: t, k => if a = k then some b else alookup t k

/-- Flat successor list across all labels, in label-then-list order
(Node.get_next_nodes_flat). -/
def GNode.getNextNodesFlat (node : GNode) : List NodeId :=
  (node.next_nodes.map Prod.snd).flatten

/-- Failure of an embedded computation: a failed dictionary lookup
(Python KeyError), or fuel exhaustion standing for nontermination. -/
inductive TErr where
  | key : TErr
  | fuel : TErr
  deriving Repr, DecidableEq

/-- Structured Sequence values: a leaf node identifier, an ordered
sequence, or labeled branches; mirrors the str/list/dict values the
transformer builds. -/
inductive Seq where
  | leaf : NodeId → Seq
  | list : List Seq → Seq
  | branches : List (Label × Seq) → Seq

/-- A depth map: node identifier to depth, in insertion order
(one Python dict produced by _get_node_depths). -/
abbrev DMap := List (NodeId × Nat)

mutual

/-- GraphSequenceTransformer._get_node_depths: one depth map per path from
n to a terminal, each recording the nodes of that path with their depths. -/
def getNodeDepths (g : Graph) (f : Nat) (n : NodeId) (depth : Nat) :
    Except TErr (List DMap) :=
  match f with
  | 0 => Except.error TErr.fuel
  | Nat.succ f' =>
    match alookup g n with
    | none => Except.error TErr.key
    | some node =>
      if node.next_nodes.isEmpty then Except.ok [[(n, depth)]]
      else
        match depthsList g f' node.getNextNodesFlat (depth + 1) with
        | Except.error e => Except.error e
        | Except.ok outs => Except.ok (outs.map (fun m => (n, depth) :: m))

/-- The inner double loop of _get_node_depths: concatenate, in successor
order, the depth maps of each successor. -/
def depthsList (g : Graph) (f : Nat) (ns : List NodeId) (depth : Nat) :
    Except TErr (List DMap) :=
  match f with
  | 0 => Except.error TErr.fuel
  | Nat.succ f' =>
    match ns with
    | [] => Except.ok []
    | n2 :: rest =>
      match getNodeDepths g f' n2 depth with
      | Except.error e => Except.error e
      | Except.ok ds =>
        match depthsList g f' rest depth with
        | Except.error e => Except.error e
        | Except.ok rest' => Except.ok (ds ++ rest')

end

/-- One merge step of _get_first_common_node: intersect the keys of the
running dict with the next depth map, keeping the maximum depth. -/
def mergeTwo : DMap → DMap → DMap
  | [], _ => []
  | q :: t, m =>
    match alookup m q.1 with
    | some w => (q.1, max q.2 w) :: mergeTwo t m
    | none => mergeTwo t m

/-- The merge loop of _get_first_common_node: fold the depth maps, taking a
whole map whenever the running dict is empty. -/
def foldCommon (ds : List DMap) : DMap :=
  ds.foldl (fun c m => if c.isEmpty then m else mergeTwo c m) []

/-- One step of the argmin scan of _get_first_common_node: skip zero
depths, keep the first strictly smallest entry. -/
def argStep (acc : Option (NodeId × Nat)) (q : NodeId × Nat) :
    Option (NodeId × Nat) :=
  if q.2 = 0 then acc
  else
    match acc with
    | none => some q
    | some a => if a.2 > q.2 then some q else acc

/-- The argmin scan of _get_first_common_node over the merged dict. -/
def argminNonzero (c : DMap) : Option (NodeId × Nat) :=
  c.foldl argStep none

/-- GraphSequenceTransformer._get_first_common_node: merge the depth maps
of n and return the common key of smallest nonzero merged depth, or the
absent sentinel. -/
def getFirstCommonNode (g : Graph) (f : Nat) (n : NodeId) :
    Except TErr (Option NodeId) :=
  match getNodeDepths g f n 0 with
  | Except.error e => Except.error e
  | Except.ok ds => Except.ok ((argminNonzero (foldCommon ds)).map Prod.fst)

mutual

/-- GraphSequenceTransformer._transform_graph_sequence: seed the parts list
with the node itself, then run the structuring loop. -/
def transformGS (g : Graph) (f : Nat) (n : NodeId) (stop : Option NodeId) :
    Except TErr (List Seq) :=
  match f with
  | 0 => Except.error TErr.fuel
  | Nat.succ f' => transformLoop g f' stop (some n) [Seq.leaf n]

/-- The while loop of _transform_graph_sequence. The current node is an
optional identifier because the single-label fan-out branch assigns the
resolver result, which may be the absent sentinel, and the loop then looks
it up (a KeyError when absent, as in the source). -/
def transformLoop (g : Graph) (f : Nat) (stop : Option NodeId)
    (curr : Option NodeId) (parts : List Seq) : Except TErr (List Seq) :=
  match f with
  | 0 => Except.error TErr.fuel
  | Nat.succ f' =>
    match curr with
    | none => Except.error TErr.key
    | some i =>
      match alookup g i with
      | none => Except.error TErr.key
      | some node =>
        match node.getNextNodesFlat with
        | [] => Except.ok parts
        | [n2] =>
          if some n2 = stop then Except.ok parts
          else transformLoop g f' stop (some n2) (parts ++ [Seq.leaf n2])
        | n2 :: n3 :: more =>
          if node.next_nodes.length = 1 then
            match getFirstCommonNode g f' i with
            | Except.error e => Except.error e
            | Except.ok j =>
              match parallelPaths g f' stop j (n2 :: n3 :: more) with
              | Except.error e => Except.error e
              | Except.ok subs =>
                transformLoop g f' stop j (parts ++ [Seq.list subs])
          else
            match getFirstCommonNode g f' i with
            | Except.error e => Except.error e
            | Except.ok j =>
              match branchEntries g f' stop j node.next_nodes with
              | Except.error e => Except.error e
              | Except.ok entries =>
                match j with
                | none => Except.ok (parts ++ [Seq.branches entries])
                | some jj =>
                  if some jj = stop then
                    Except.ok (parts ++ [Seq.branches entries])
                  else
                    transformLoop g f' stop (some jj)
                      (parts ++ [Seq.branches entries, Seq.leaf jj])

/-- The single-label fan-out of the loop: transform each successor other
than stop, bounded by the join point. -/
def parallelPaths (g : Graph) (f : Nat) (stop j : Option NodeId)
    (ns : List NodeId) : Except TErr (List Seq) :=
  match f with
  | 0 => Except.error TErr.fuel
  | Nat.succ f' =>
    match ns with
    | [] => Except.ok []
    | x :: rest =>
      if some x = stop then parallelPaths g f' stop j rest
      else
        match transformGS g f' x j with
        | Except.error e => Except.error e
        | Except.ok t =>
          match parallelPaths g f' stop j rest with
          | Except.error e => Except.error e
          | Except.ok ts => Except.ok (Seq.list t :: ts)

/-- The inner loop over one label's targets in the labeled-branches case:
skip stop, emit an empty path for the join point, otherwise transform. -/
def branchPaths (g : Graph) (f : Nat) (stop j : Option NodeId)
    (ns : List NodeId) : Except TErr (List Seq) :=
  match f with
  | 0 => Except.error TErr.fuel
  | Nat.succ f' =>
    match ns with
    | [] => Except.ok []
    | x :: rest =>
      if some x = stop then branchPaths g f' stop j rest
      else if some x = j then
        match branchPaths g f' stop j rest with
        | Except.error e => Except.error e
        | Except.ok ts => Except.ok (Seq.list [] :: ts)
      else
        match transformGS g f' x j with
        | Except.error e => Except.error e
        | Except.ok t =>
          match branchPaths g f' stop j rest with
          | Except.error e => Except.error e
          | Except.ok ts => Except.ok (Seq.list t :: ts)

/-- The loop over branch labels in the labeled-branches case: one entry per
label, a single path stored directly, several stored as a list, an empty
paths list contributing no entry. -/
def branchEntries (g : Graph) (f : Nat) (stop j : Option NodeId)
    (kvs : List (Label × List NodeId)) : Except TErr (List (Label × Seq)) :=
  match f with
  | 0 => Except.error TErr.fuel
  | Nat.succ f' =>
    match kvs with
    | [] => Except.ok []
    | (k, v) :: rest =>
      match branchPaths g f' stop j v with
      | Except.error e => Except.error e
      | Except.ok paths =>
        match branchEntries g f' stop j rest with
        | Except.error e => Except.error e
        | Except.ok restE =>
          match paths with
          | [] => Except.ok restE
          | [p] => Except.ok ((k, p) :: restE)
          | _ => Except.ok ((k, Seq.list paths) :: restE)

end

/-- GraphSequenceTransformer.transform: structure the graph from the start
node with no stop boundary. -/
def transform (g : Graph) (f : Nat) (start : GNode) : Except TErr (List Seq) :=
  transformGS g f start.node_id none

/-! ## The code renderer (PlaybookPythonAstRenderer) -/

/-- The fragment of the host syntax tree the code renderer builds for a
leaf: constants, names, and calls of a name on arguments. -/
inductive PyExpr where
  | constant : String → PyExpr
  | name : String → PyExpr
  | call : PyExpr → List PyExpr → PyExpr
  deriving Repr

/-- Statements the code renderer builds for a leaf: an expression
statement or a single-target assignment. -/
inductive PyStmt where
  | expr : PyExpr → PyStmt
  | assign : List PyExpr → PyExpr → PyStmt
  deriving Repr

/-- The task metadata the code renderer reads for a leaf: the kind string,
the task identifier, and the display name. -/
structure Task where
  type : String
  id : String
  name : String
  deriving Repr, DecidableEq

/-- Failures of the code renderer on a leaf: a missing task (KeyError) or
a task kind outside the closed dispatch set (the raise at the end). -/
inductive RenderErr where
  | key : RenderErr
  | unknownKind : RenderErr
  deriving Repr, DecidableEq

/-- PlaybookPythonAstRenderer._render_str: dispatch on the referenced
task's kind, one synthetic statement per recognized kind, raising on any
other kind. -/
def renderStr (tasks : List (NodeId × Task)) (tid : NodeId) :
    Except RenderErr PyStmt :=
  match alookup tasks tid with
  | none => Except.error RenderErr.key
  | some task =>
    if task.type = "start" then
      Except.ok (PyStmt.expr (PyExpr.constant (task.id ++ " - start")))
    else if task.type = "title" then
      Except.ok (PyStmt.expr (PyExpr.constant (task.id ++ " - " ++ task.name)))
    else if task.type = "regular" ∨ task.type = "playbook" then
      Except.ok (PyStmt.expr
        (PyExpr.call (PyExpr.name ("task_" ++ task.id)) [PyExpr.constant task.name]))
    else if task.type = "condition" then
      Except.ok (PyStmt.assign [PyExpr.name "condition_res"]
        (PyExpr.call (PyExpr.name ("condition_" ++ task.id)) [PyExpr.constant task.name]))
    else Except.error RenderErr.unknownKind

/-! ## Semantic layer: complete paths and the spec-described resolver -/

/-- A complete path from a node to a terminal, following successor edges.
Terminal here is a node whose label mapping is empty, matching the base
case of _get_node_depths. -/
inductive CPath (g : Graph) : NodeId → List NodeId → Prop where
  | term : ∀ n node, alookup g n = some node → node.next_nodes = [] →
      CPath g n [n]
  | step : ∀ n node n2 p, alookup g n = some node →
      n2 ∈ node.getNextNodesFlat → CPath g n2 p → CPath g n (n :: p)

/-- The depth map a path denotes: each node of the path with its distance
from the path start, offset by the starting depth. -/
def pathMap : List NodeId → Nat → DMap
  | [], _ => []
  | x :: t, d => (x, d) :: pathMap t (d + 1)

/-- Index of the first occurrence of an identifier in a list. -/
def idxOf : List NodeId → NodeId → Nat
  | [], _ => 0
  | x :: t, a => if x = a then 0 else idxOf t a + 1

/-- One successor edge of the graph. -/
def stepR (g : Graph) (x y : NodeId) : Prop :=
  ∃ node, alookup g x = some node ∧ y ∈ node.getNextNodesFlat

/-- Reachability in exactly k successor steps. -/
inductive stepsN (g : Graph) : Nat → NodeId → NodeId → Prop where
  | refl : ∀ x, stepsN g 0 x x
  | head : ∀ k x y z, stepR g x y → stepsN g k y z → stepsN g (k + 1) x z

/-- The depth-map computation completes on some input depth with the
given fuel. -/
def Succeeds (g : Graph) (f : Nat) (n : NodeId) : Prop :=
  ∃ d ds, getNodeDepths g f n d = Except.ok ds

/-- A key occurs in every one of the given depth maps. -/
def inAllKeys (k : NodeId) (ds : List DMap) : Bool :=
  ds.all (fun m => (alookup m k).isSome)

/-- The depth recorded for a key in one map, zero when absent. -/
def depthIn (m : DMap) (k : NodeId) : Nat :=
  (alookup m k).getD 0

/-- Maximum of an initial depth and the depths recorded for a key across
a list of maps. -/
def maxOver (k : NodeId) (v : Nat) (ds : List DMap) : Nat :=
  ds.foldl (fun a m => max a (depthIn m k)) v

/-- Modelled from the spec: the merge described for the join-point
resolver, intersecting the key sets of the depth maps and keeping, for
each surviving key, the maximum depth seen across the maps, in first-map
iteration order. -/
def commonSpec : List DMap → DMap
  | [] => []
  | m0 :: rest =>
    m0.filterMap (fun q =>
      if inAllKeys q.1 rest then some (q.1, maxOver q.1 q.2 rest) else none)

/-! ## Concrete example graphs and tasks -/

/-- Node A with a single unlabeled branch fanning out to B and C. -/
def nSplitA : GNode := ⟨"A", [("", ["B", "C"])]⟩

/-- Node B with a single link to D. -/
def nChainB : GNode := ⟨"B", [("", ["D"])]⟩

/-- Node C with a single link to D. -/
def nChainC : GNode := ⟨"C", [("", ["D"])]⟩

/-- Terminal node B. -/
def nTermB : GNode := ⟨"B", []⟩

/-- Terminal node C. -/
def nTermC : GNode := ⟨"C", []⟩

/-- Terminal node D. -/
def nTermD : GNode := ⟨"D", []⟩

/-- Node A with labeled branches yes to B and no to C. -/
def nCondA : GNode := ⟨"A", [("yes", ["B"]), ("no", ["C"])]⟩

/-- Unlabeled fan-out from A to B and C, both leading to terminal D. -/
def gSplitJoin : Graph :=
  [("A", nSplitA), ("B", nChainB), ("C", nChainC), ("D", nTermD)]

/-- Unlabeled fan-out from A to the distinct terminals B and C. -/
def gSplitNoJoin : Graph := [("A", nSplitA), ("B", nTermB), ("C", nTermC)]

/-- Labeled diamond: A branches on yes and no to B and C, both leading to
terminal D. -/
def gDiamond : Graph :=
  [("A", nCondA), ("B", nChainB), ("C", nChainC), ("D", nTermD)]

/-- Labeled branches from A to the distinct terminals B and C. -/
def gCondNoJoin : Graph := [("A", nCondA), ("B", nTermB), ("C", nTermC)]

/-- Task table with one recognized and one unrecognized task kind. -/
def tasksEx : List (NodeId × Task) :=
  [("1", ⟨"start", "1", "Start"⟩), ("2", ⟨"mystery", "2", "X"⟩)]

/-! ## Basic lemmas -/

lemma flat_nil {node : GNode} (h : node.next_nodes = []) :
    node.getNextNodesFlat = [] := by
  simp [GNode.getNextNodesFlat, h]

lemma cpath_head {g : Graph} {n : NodeId} {p : List NodeId} (h : CPath g n p) :
    ∃ t, p = n :: t := by
  cases h with
  | term n node hl he => exact ⟨[], rfl⟩
  | step n node n2 p' hl hm hp => exact ⟨p', rfl⟩

lemma pathMap_fst (p : List NodeId) (d : Nat) :
    (pathMap p d).map Prod.fst = p := by
  induction p generalizing d with
  | nil => rfl
  | cons x t ih => simp [pathMap, ih]

lemma pathMap_inj {p q : List NodeId} {d : Nat}
    (h : pathMap p d = pathMap q d) : p = q := by
  have h2 := congrArg (List.map Prod.fst) h
  rwa [pathMap_fst, pathMap_fst] at h2

lemma alookup_pathMap_of_mem {p : List NodeId} {x : NodeId} (hx : x ∈ p)
    (d : Nat) : alookup (pathMap p d) x = some (d + idxOf p x) := by
  induction p generalizing d with
  | nil => cases hx
  | cons y t ih =>
    by_cases hxy : y = x
    · subst hxy; simp [pathMap, alookup, idxOf]
    · rcases List.mem_cons.mp hx with rfl | hmem
      · exact absurd rfl hxy
      · simp only [pathMap, alookup, idxOf, if_neg hxy]
        rw [ih hmem]
        simp only [Option.some.injEq]
        omega

lemma mem_of_alookup_pathMap {p : List NodeId} {x : NodeId} {d v : Nat}
    (h : alookup (pathMap p d) x = some v) : x ∈ p := by
  induction p generalizing d with
  | nil => simp [pathMap, alookup] at h
  | cons y t ih =>
    by_cases hxy : y = x
    · subst hxy; exact List.mem_cons_self _ _
    · simp only [pathMap, alookup, if_neg hxy] at h
      exact List.mem_cons_of_mem _ (ih h)

lemma mem_pathMap_of_mem {p : List NodeId} {x : NodeId} (hx : x ∈ p)
    (d : Nat) : (x, d + idxOf p x) ∈ pathMap p d := by
  induction p generalizing d with
  | nil => cases hx
  | cons y t ih =>
    by_cases hxy : y = x
    · subst hxy
      simp [pathMap, idxOf]
    · rcases List.mem_cons.mp hx with rfl | hmem
      · exact absurd rfl hxy
      · simp only [pathMap, idxOf, if_neg hxy]
        refine List.mem_cons_of_mem _ ?_
        have h2 := ih hmem (d + 1)
        have he : d + 1 + idxOf t x = d + (idxOf t x + 1) := by omega
        rwa [he] at h2

lemma pathMap_mem_key {p : List NodeId} {x : NodeId} {v d : Nat}
    (h : (x, v) ∈ pathMap p d) : x ∈ p := by
  induction p generalizing d with
  | nil => cases h
  | cons y t ih =>
    rcases List.mem_cons.mp h with heq | hmem
    · cases heq; exact List.mem_cons_self _ _
    · exact List.mem_cons_of_mem _ (ih hmem)

lemma pathMap_mem_val {p : List NodeId} {x : NodeId} {v d : Nat}
    (hnd : p.Nodup) (h : (x, v) ∈ pathMap p d) : v = d + idxOf p x := by
  induction p generalizing d with
  | nil => cases h
  | cons y t ih =>
    rcases List.mem_cons.mp h with heq | hmem
    · cases heq
      simp [idxOf]
    · have hx : x ∈ t := pathMap_mem_key hmem
      have hxy : y ≠ x := by
        rintro rfl
        exact (List.nodup_cons.mp hnd).1 hx
      rw [idxOf, if_neg hxy]
      have h2 := ih (List.nodup_cons.mp hnd).2 hmem
      omega

lemma maxOver_ge_init (k : NodeId) (v : Nat) (ds : List DMap) :
    v ≤ maxOver k v ds := by
  induction ds generalizing v with
  | nil => simp [maxOver]
  | cons m r ih =>
    simp only [maxOver, List.foldl_cons]
    exact le_trans (le_max_left _ _) (ih _)

lemma maxOver_ge_mem {ds : List DMap} {m : DMap} (hm : m ∈ ds) (k : NodeId)
    (v : Nat) : depthIn m k ≤ maxOver k v ds := by
  induction ds generalizing v with
  | nil => cases hm
  | cons m0 r ih =>
    simp only [maxOver, List.foldl_cons]
    rcases List.mem_cons.mp hm with rfl | hmem
    · exact le_trans (le_max_right _ _) (maxOver_ge_init _ _ _)
    · exact ih hmem _

lemma maxOver_attain (k : NodeId) (v : Nat) (ds : List DMap) :
    maxOver k v ds = v ∨ ∃ m ∈ ds, maxOver k v ds = depthIn m k := by
  induction ds generalizing v with
  | nil => left; rfl
  | cons m0 r ih =>
    have hstep : maxOver k v (m0 :: r) = maxOver k (max v (depthIn m0 k)) r := rfl
    rcases ih (max v (depthIn m0 k)) with h | ⟨m, hm, h⟩
    · rcases max_choice v (depthIn m0 k) with hc | hc
      · left; rw [hstep, h, hc]
      · right; exact ⟨m0, List.mem_cons_self _ _, by rw [hstep, h, hc]⟩
    · right; exact ⟨m, List.mem_cons_of_mem _ hm, by rw [hstep, h]⟩

lemma maxOver_zero {k : NodeId} {ds : List DMap}
    (h : ∀ m ∈ ds, depthIn m k = 0) : maxOver k 0 ds = 0 := by
  induction ds with
  | nil => rfl
  | cons m r ih =>
    have hstep : maxOver k 0 (m :: r) = maxOver k (max 0 (depthIn m k)) r := rfl
    rw [hstep, h m (List.mem_cons_self _ _)]
    exact ih fun m' hm' => h m' (List.mem_cons_of_mem _ hm')

lemma alookup_mergeTwo (c m : DMap) (k : NodeId) :
    alookup (mergeTwo c m) k =
      (alookup c k).bind (fun v => (alookup m k).map (fun w => max v w)) := by
  induction c with
  | nil => simp [mergeTwo, alookup]
  | cons q t ih =>
    cases hq : alookup m q.1 with
    | some w =>
      by_cases hk : q.1 = k
      · subst hk
        simp [mergeTwo, hq, alookup]
      · simp [mergeTwo, hq, alookup, hk, ih]
    | none =>
      by_cases hk : q.1 = k
      · subst hk
        simp only [mergeTwo, hq, ih, alookup, if_pos rfl]
        cases alookup t q.1 <;> simp [hq]
      · simp [mergeTwo, hq, alookup, hk, ih]

/-! ## The merge loop equals the spec-described intersection-with-max -/

lemma filterMap_pair_eta (l : DMap) :
    l.filterMap (fun q => some (q.1, q.2)) = l := by
  induction l with
  | nil => rfl
  | cons q t ih => simp [List.filterMap_cons, ih]

lemma mergeTwo_filterMap (m0 m : DMap) (rest : List DMap) :
    (mergeTwo m0 m).filterMap (fun q =>
        if inAllKeys q.1 rest then some (q.1, maxOver q.1 q.2 rest) else none)
      = m0.filterMap (fun q =>
        if inAllKeys q.1 (m :: rest) then
          some (q.1, maxOver q.1 q.2 (m :: rest)) else none) := by
  induction m0 with
  | nil => rfl
  | cons q t ih =>
    cases hq : alookup m q.1 with
    | some w =>
      have h1 : inAllKeys q.1 (m :: rest) = inAllKeys q.1 rest := by
        simp [inAllKeys, hq]
      have h2 : maxOver q.1 q.2 (m :: rest) = maxOver q.1 (max q.2 w) rest := by
        simp [maxOver, depthIn, hq]
      simp only [mergeTwo, hq, List.filterMap_cons, h1, h2, ih]
    | none =>
      have h1 : inAllKeys q.1 (m :: rest) = false := by
        simp [inAllKeys, hq]
      simp only [mergeTwo, hq, List.filterMap_cons, h1, ih]
      simp

lemma alookup_ne_nil {β : Type} {m : List (NodeId × β)} {k : NodeId}
    (h : (alookup m k).isSome) : m.isEmpty = false := by
  cases m with
  | nil => simp [alookup] at h
  | cons q t => rfl

lemma foldl_merge_spec (rest : List DMap) : ∀ (m0 : DMap) (k0 : NodeId),
    (alookup m0 k0).isSome → (∀ m ∈ rest, (alookup m k0).isSome) →
    List.foldl (fun c m => if c.isEmpty then m else mergeTwo c m) m0 rest
      = commonSpec (m0 :: rest) := by
  induction rest with
  | nil =>
    intro m0 k0 h0 hr
    have : commonSpec [m0] = m0.filterMap (fun q => some (q.1, q.2)) := rfl
    rw [this, filterMap_pair_eta]
    rfl
  | cons m rest' ih =>
    intro m0 k0 h0 hr
    have hne : m0.isEmpty = false := alookup_ne_nil h0
    have hstep : List.foldl (fun c m => if c.isEmpty then m else mergeTwo c m)
        m0 (m :: rest')
        = List.foldl (fun c m => if c.isEmpty then m else mergeTwo c m)
          (mergeTwo m0 m) rest' := by
      simp only [List.foldl_cons]
      rw [if_neg (by simp [hne])]
    have hm0m : (alookup (mergeTwo m0 m) k0).isSome := by
      rw [alookup_mergeTwo]
      have hm := hr m (List.mem_cons_self _ _)
      rcases Option.isSome_iff_exists.mp h0 with ⟨v, hv⟩
      rcases Option.isSome_iff_exists.mp hm with ⟨w, hw⟩
      simp [hv, hw]
    rw [hstep, ih (mergeTwo m0 m) k0 hm0m
      (fun m' hm' => hr m' (List.mem_cons_of_mem _ hm'))]
    show (mergeTwo m0 m).filterMap _ = commonSpec (m0 :: m :: rest')
    rw [mergeTwo_filterMap]
    rfl

lemma foldCommon_eq_commonSpec (k0 : NodeId) {ds : List DMap}
    (h : ∀ m ∈ ds, (alookup m k0).isSome) :
    foldCommon ds = commonSpec ds := by
  cases ds with
  | nil => rfl
  | cons m0 rest =>
    have hinit : foldCommon (m0 :: rest)
        = List.foldl (fun c m => if c.isEmpty then m else mergeTwo c m)
          m0 rest := by
      simp [foldCommon]
    rw [hinit]
    exact foldl_merge_spec rest m0 k0 (h m0 (List.mem_cons_self _ _))
      (fun m hm => h m (List.mem_cons_of_mem _ hm))

/-! ## The argmin scan -/

lemma argStep_zero (acc : Option (NodeId × Nat)) {q : NodeId × Nat}
    (h : q.2 = 0) : argStep acc q = acc := by
  simp [argStep, h]

lemma argStep_none {q : NodeId × Nat} (h : q.2 ≠ 0) :
    argStep none q = some q := by
  simp [argStep, h]

lemma argStep_some_lt {a q : NodeId × Nat} (h : q.2 ≠ 0) (h2 : a.2 > q.2) :
    argStep (some a) q = some q := by
  simp [argStep, h, h2]

lemma argStep_some_ge {a q : NodeId × Nat} (h : q.2 ≠ 0) (h2 : ¬a.2 > q.2) :
    argStep (some a) q = some a := by
  simp [argStep, h, h2]

lemma foldl_argStep_none_iff (l : DMap) : ∀ acc,
    List.foldl argStep acc l = none ↔ acc = none ∧ ∀ q ∈ l, q.2 = 0 := by
  induction l with
  | nil => intro acc; simp
  | cons q t ih =>
    intro acc
    rw [List.foldl_cons, ih]
    constructor
    · rintro ⟨h1, h2⟩
      by_cases hq : q.2 = 0
      · rw [argStep_zero acc hq] at h1
        refine ⟨h1, fun r hr => ?_⟩
        rcases List.mem_cons.mp hr with rfl | hm
        · exact hq
        · exact h2 r hm
      · exfalso
        cases acc with
        | none => rw [argStep_none hq] at h1; exact Option.noConfusion h1
        | some a =>
          by_cases hgt : a.2 > q.2
          · rw [argStep_some_lt hq hgt] at h1; exact Option.noConfusion h1
          · rw [argStep_some_ge hq hgt] at h1; exact Option.noConfusion h1
    · rintro ⟨rfl, h2⟩
      have hq := h2 q (List.mem_cons_self _ _)
      rw [argStep_zero none hq]
      exact ⟨rfl, fun r hr => h2 r (List.mem_cons_of_mem _ hr)⟩

lemma foldl_argStep_some (l : DMap) : ∀ (acc : Option (NodeId × Nat))
    (p : NodeId × Nat), List.foldl argStep acc l = some p →
    (acc = some p ∧ ∀ q ∈ l, q.2 ≠ 0 → p.2 ≤ q.2) ∨
    (∃ l1 l2, l = l1 ++ p :: l2 ∧ p.2 ≠ 0 ∧
      (∀ q ∈ l1, q.2 ≠ 0 → p.2 < q.2) ∧ (∀ q ∈ l2, q.2 ≠ 0 → p.2 ≤ q.2) ∧
      (∀ a, acc = some a → p.2 < a.2)) := by
  induction l with
  | nil =>
    intro acc p h
    rw [List.foldl_nil] at h
    exact Or.inl ⟨h, by simp⟩
  | cons q t ih =>
    intro acc p h
    rw [List.foldl_cons] at h
    rcases ih (argStep acc q) p h with ⟨ha, hall⟩ | ⟨l1, l2, heq, hp0, h1, h2, hacc⟩
    · by_cases hq : q.2 = 0
      · rw [argStep_zero acc hq] at ha
        refine Or.inl ⟨ha, fun r hr hr0 => ?_⟩
        rcases List.mem_cons.mp hr with rfl | hm
        · exact absurd hq hr0
        · exact hall r hm hr0
      · cases acc with
        | none =>
          rw [argStep_none hq] at ha
          injection ha with ha'
          subst ha'
          refine Or.inr ⟨[], t, rfl, hq, by simp, hall, by simp⟩
        | some a =>
          by_cases hgt : a.2 > q.2
          · rw [argStep_some_lt hq hgt] at ha
            injection ha with ha'
            subst ha'
            refine Or.inr ⟨[], t, rfl, hq, by simp, hall, ?_⟩
            intro b hb
            injection hb with hb'
            subst hb'
            exact hgt
          · rw [argStep_some_ge hq hgt] at ha
            injection ha with ha'
            subst ha'
            refine Or.inl ⟨rfl, fun r hr hr0 => ?_⟩
            rcases List.mem_cons.mp hr with rfl | hm
            · omega
            · exact hall r hm hr0
    · refine Or.inr ⟨q :: l1, l2, by rw [heq, List.cons_append], hp0, ?_, h2, ?_⟩
      · intro r hr hr0
        rcases List.mem_cons.mp hr with rfl | hm
        · cases acc with
          | none => exact hacc r (argStep_none hr0)
          | some a =>
            by_cases hgt : a.2 > r.2
            · exact hacc r (argStep_some_lt hr0 hgt)
            · have := hacc a (argStep_some_ge hr0 hgt)
              omega
        · exact h1 r hm hr0
      · intro b hb
        subst hb
        by_cases hq : q.2 = 0
        · exact hacc b (argStep_zero _ hq)
        · by_cases hgt : b.2 > q.2
          · have := hacc q (argStep_some_lt hq hgt)
            omega
          · exact hacc b (argStep_some_ge hq hgt)

lemma foldl_argStep_stay (l2 : DMap) (p : NodeId × Nat)
    (h : ∀ q ∈ l2, q.2 ≠ 0 → p.2 ≤ q.2) :
    List.foldl argStep (some p) l2 = some p := by
  induction l2 with
  | nil => rfl
  | cons q t ih =>
    rw [List.foldl_cons]
    have hs : argStep (some p) q = some p := by
      by_cases hq : q.2 = 0
      · exact argStep_zero _ hq
      · refine argStep_some_ge hq ?_
        have := h q (List.mem_cons_self _ _) hq
        omega
    rw [hs]
    exact ih fun q hq => h q (List.mem_cons_of_mem _ hq)

lemma foldl_argStep_reaches : ∀ (l1 : DMap) (acc : Option (NodeId × Nat))
    (p : NodeId × Nat) (l2 : DMap), p.2 ≠ 0 →
    (∀ q ∈ l1, q.2 ≠ 0 → p.2 < q.2) → (∀ q ∈ l2, q.2 ≠ 0 → p.2 ≤ q.2) →
    (∀ a, acc = some a → p.2 < a.2) →
    List.foldl argStep acc (l1 ++ p :: l2) = some p := by
  intro l1
  induction l1 with
  | nil =>
    intro acc p l2 hp h1 h2 hacc
    rw [List.nil_append, List.foldl_cons]
    have hs : argStep acc p = some p := by
      cases acc with
      | none => exact argStep_none hp
      | some a => exact argStep_some_lt hp (hacc a rfl)
    rw [hs]
    exact foldl_argStep_stay l2 p h2
  | cons q t ih =>
    intro acc p l2 hp h1 h2 hacc
    rw [List.cons_append, List.foldl_cons]
    apply ih _ p l2 hp (fun r hr => h1 r (List.mem_cons_of_mem _ hr)) h2
    intro a ha
    by_cases hq : q.2 = 0
    · rw [argStep_zero acc hq] at ha
      exact hacc a ha
    · cases acc with
      | none =>
        rw [argStep_none hq] at ha
        injection ha with ha'
        subst ha'
        exact h1 q (List.mem_cons_self _ _) hq
      | some b =>
        by_cases hgt : b.2 > q.2
        · rw [argStep_some_lt hq hgt] at ha
          injection ha with ha'
          subst ha'
          exact h1 q (List.mem_cons_self _ _) hq
        · rw [argStep_some_ge hq hgt] at ha
          injection ha with ha'
          subst ha'
          exact hacc b rfl

lemma argminNonzero_reaches {c : DMap} {p : NodeId × Nat} {c1 c2 : DMap}
    (heq : c = c1 ++ p :: c2) (hp : p.2 ≠ 0)
    (h1 : ∀ q ∈ c1, q.2 ≠ 0 → p.2 < q.2)
    (h2 : ∀ q ∈ c2, q.2 ≠ 0 → p.2 ≤ q.2) : argminNonzero c = some p := by
  rw [argminNonzero, heq]
  exact foldl_argStep_reaches c1 none p c2 hp h1 h2 (by simp)

/-! ## Depth maps are exactly the maps of complete paths -/

lemma getNodeDepths_succ (g : Graph) (f : Nat) (n : NodeId) (d : Nat) :
    getNodeDepths g (f + 1) n d =
      match alookup g n with
      | none => Except.error TErr.key
      | some node =>
        if node.next_nodes.isEmpty then Except.ok [[(n, d)]]
        else
          match depthsList g f node.getNextNodesFlat (d + 1) with
          | Except.error e => Except.error e
          | Except.ok outs => Except.ok (outs.map (fun m => (n, d) :: m)) := rfl

lemma depthsList_nil (g : Graph) (f : Nat) (d : Nat) :
    depthsList g (f + 1) [] d = Except.ok [] := rfl

lemma depthsList_cons (g : Graph) (f : Nat) (n2 : NodeId) (rest : List NodeId)
    (d : Nat) :
    depthsList g (f + 1) (n2 :: rest) d =
      match getNodeDepths g f n2 d with
      | Except.error e => Except.error e
      | Except.ok ds =>
        match depthsList g f rest d with
        | Except.error e => Except.error e
        | Except.ok rest' => Except.ok (ds ++ rest') := rfl

lemma cpath_inversion {g : Graph} {n : NodeId} {p : List NodeId}
    (h : CPath g n p) :
    (∃ node, alookup g n = some node ∧ node.next_nodes = [] ∧ p = [n]) ∨
    (∃ node n2 p', alookup g n = some node ∧ n2 ∈ node.getNextNodesFlat ∧
      CPath g n2 p' ∧ p = n :: p') := by
  cases h
  · rename_i node he hl
    exact Or.inl ⟨node, hl, he, rfl⟩
  · rename_i node n2 p' hm hp hl
    exact Or.inr ⟨node, n2, p', hl, hm, hp, rfl⟩

lemma char_both (f : Nat) :
    (∀ g n d ds, getNodeDepths g f n d = Except.ok ds →
      ∀ m, m ∈ ds ↔ ∃ p, CPath g n p ∧ m = pathMap p d) ∧
    (∀ g ns d ds, depthsList g f ns d = Except.ok ds →
      ∀ m, m ∈ ds ↔ ∃ n2 p, n2 ∈ ns ∧ CPath g n2 p ∧ m = pathMap p d) := by
  induction f with
  | zero =>
    constructor
    · intro g n d ds h
      simp [getNodeDepths] at h
    · intro g ns d ds h
      simp [depthsList] at h
  | succ f ih =>
    obtain ⟨ih1, ih2⟩ := ih
    constructor
    · intro g n d ds h m
      rw [getNodeDepths_succ] at h
      split at h
      · exact absurd h (by simp)
      · rename_i node hl
        by_cases hemp : node.next_nodes.isEmpty
        · rw [if_pos hemp] at h
          injection h with h'
          subst h'
          simp only [List.mem_singleton]
          constructor
          · rintro rfl
            exact ⟨[n], CPath.term n node hl (List.isEmpty_iff.mp hemp), rfl⟩
          · rintro ⟨p, hp, rfl⟩
            rcases cpath_inversion hp with ⟨node2, hl2, he2, rfl⟩ |
              ⟨node2, n3, p', hl2, hm2, hp2, rfl⟩
            · rfl
            · rw [hl] at hl2
              injection hl2 with he
              subst he
              rw [flat_nil (List.isEmpty_iff.mp hemp)] at hm2
              cases hm2
        · rw [if_neg hemp] at h
          split at h
          · exact absurd h (by simp)
          · rename_i outs hdl
            injection h with h'
            subst h'
            rw [List.mem_map]
            constructor
            · rintro ⟨m', hm', rfl⟩
              obtain ⟨n2, p, hn2, hp, rfl⟩ := (ih2 g _ _ _ hdl m').mp hm'
              exact ⟨n :: p, CPath.step n node n2 p hl hn2 hp, rfl⟩
            · rintro ⟨p, hp, rfl⟩
              rcases cpath_inversion hp with ⟨node2, hl2, he2, rfl⟩ |
                ⟨node2, n3, p', hl2, hm2, hp2, rfl⟩
              · rw [hl] at hl2
                injection hl2 with he
                subst he
                exact absurd (List.isEmpty_iff.mpr he2) (by simpa using hemp)
              · rw [hl] at hl2
                injection hl2 with he
                subst he
                exact ⟨pathMap p' (d + 1),
                  (ih2 g _ _ _ hdl _).mpr ⟨n3, p', hm2, hp2, rfl⟩, rfl⟩
    · intro g ns d ds h m
      cases ns with
      | nil =>
        rw [depthsList_nil] at h
        injection h with h'
        subst h'
        simp
      | cons n2 rest =>
        rw [depthsList_cons] at h
        split at h
        · exact absurd h (by simp)
        · rename_i ds1 h1
          split at h
          · exact absurd h (by simp)
          · rename_i ds2 h2
            injection h with h'
            subst h'
            rw [List.mem_append, ih1 g n2 d ds1 h1 m, ih2 g rest d ds2 h2 m]
            constructor
            · rintro (⟨p, hp, rfl⟩ | ⟨n3, p, hn3, hp, rfl⟩)
              · exact ⟨n2, p, List.mem_cons_self _ _, hp, rfl⟩
              · exact ⟨n3, p, List.mem_cons_of_mem _ hn3, hp, rfl⟩
            · rintro ⟨n3, p, hn3, hp, rfl⟩
              rcases List.mem_cons.mp hn3 with rfl | hmem
              · exact Or.inl ⟨p, hp, rfl⟩
              · exact Or.inr ⟨n3, p, hmem, hp, rfl⟩

lemma getNodeDepths_char {g : Graph} {f : Nat} {n : NodeId} {d : Nat}
    {ds : List DMap} (h : getNodeDepths g f n d = Except.ok ds) :
    ∀ m, m ∈ ds ↔ ∃ p, CPath g n p ∧ m = pathMap p d :=
  (char_both f).1 g n d ds h

/-! ## Success of the depth computation rules out revisiting a node -/

lemma stepsN_append {g : Graph} {k : Nat} {x y z : NodeId}
    (h : stepsN g k x y) (h2 : stepR g y z) : stepsN g (k + 1) x z := by
  induction h with
  | refl x => exact stepsN.head 0 x z z h2 (stepsN.refl z)
  | head k a b c hab hbc ih => exact stepsN.head _ _ _ _ hab (ih h2)

lemma depthsList_succeeds : ∀ (fl : Nat) (g : Graph) (ns : List NodeId)
    (d : Nat) (outs : List DMap), depthsList g fl ns d = Except.ok outs →
    ∀ y ∈ ns, ∃ f' < fl, Succeeds g f' y := by
  intro fl
  induction fl with
  | zero =>
    intro g ns d outs h
    simp [depthsList] at h
  | succ f ih =>
    intro g ns d outs h y hy
    cases ns with
    | nil => cases hy
    | cons n2 rest =>
      rw [depthsList_cons] at h
      split at h
      · exact absurd h (by simp)
      · rename_i ds1 h1
        split at h
        · exact absurd h (by simp)
        · rename_i ds2 h2
          rcases List.mem_cons.mp hy with rfl | hmem
          · exact ⟨f, Nat.lt_succ_self f, d, ds1, h1⟩
          · obtain ⟨f', hf', hs⟩ := ih g rest d ds2 h2 y hmem
            exact ⟨f', Nat.lt_trans hf' (Nat.lt_succ_self f), hs⟩

lemma step_succeeds {g : Graph} {f : Nat} {x y : NodeId}
    (h : Succeeds g f x) (hs : stepR g x y) : ∃ f' < f, Succeeds g f' y := by
  obtain ⟨d, ds, hd⟩ := h
  obtain ⟨node, hl, hm⟩ := hs
  cases f with
  | zero => simp [getNodeDepths] at hd
  | succ f =>
    rw [getNodeDepths_succ] at hd
    split at hd
    · exact absurd hd (by simp)
    · rename_i node' hl'
      rw [hl] at hl'
      injection hl' with he
      subst he
      by_cases hemp : node.next_nodes.isEmpty
      · rw [flat_nil (List.isEmpty_iff.mp hemp)] at hm
        cases hm
      · rw [if_neg hemp] at hd
        split at hd
        · exact absurd hd (by simp)
        · rename_i outs hdl
          obtain ⟨f', hf', hs'⟩ := depthsList_succeeds f g _ _ _ hdl y hm
          exact ⟨f', Nat.lt_trans hf' (Nat.lt_succ_self f), hs'⟩

lemma no_revisit {g : Graph} : ∀ f x, Succeeds g f x →
    ∀ k, ¬stepsN g (k + 1) x x := by
  intro f
  induction f using Nat.strong_induction_on with
  | _ f ih =>
    intro x hs k hc
    cases hc
    rename_i y hxy hyz
    obtain ⟨f', hf', hs'⟩ := step_succeeds hs hxy
    exact ih f' hf' _ hs' k (stepsN_append hyz hxy)

lemma cpath_mem_steps {g : Graph} : ∀ {n : NodeId} {p : List NodeId},
    CPath g n p → ∀ x ∈ p, x = n ∨ ∃ k, stepsN g (k + 1) n x := by
  intro n p h
  induction h with
  | term n node hl he =>
    intro x hx
    rw [List.mem_singleton] at hx
    exact Or.inl hx
  | step n node n2 p' hl hm hp ih =>
    intro x hx
    rcases List.mem_cons.mp hx with rfl | hmem
    · exact Or.inl rfl
    · rcases ih x hmem with rfl | ⟨k, hk⟩
      · exact Or.inr ⟨0, stepsN.head 0 n x x ⟨node, hl, hm⟩ (stepsN.refl x)⟩
      · exact Or.inr ⟨k + 1, stepsN.head _ n n2 x ⟨node, hl, hm⟩ hk⟩

lemma cpath_nodup {g : Graph} : ∀ {n : NodeId} {p : List NodeId},
    CPath g n p → ∀ f, Succeeds g f n → p.Nodup := by
  intro n p h
  induction h with
  | term n node hl he =>
    intro f hs
    simp
  | step n node n2 p' hl hm hp ih =>
    intro f hs
    have hstep : stepR g n n2 := ⟨node, hl, hm⟩
    obtain ⟨f', hf', hs'⟩ := step_succeeds hs hstep
    rw [List.nodup_cons]
    refine ⟨?_, ih f' hs'⟩
    intro hmem
    rcases cpath_mem_steps hp n hmem with rfl | ⟨k, hk⟩
    · exact no_revisit f n hs 0 (stepsN.head 0 n n n hstep (stepsN.refl n))
    · exact no_revisit f n hs (k + 1) (stepsN.head (k + 1) n n2 n hstep hk)

/-! ## Helpers for the resolver correctness proof -/

lemma nodup_middle {α : Type} {l1 l2 : List α} {a : α}
    (h : (l1 ++ a :: l2).Nodup) : a ∉ l1 ∧ a ∉ l2 := by
  rw [List.nodup_append] at h
  obtain ⟨h1, h2, hd⟩ := h
  rw [List.nodup_cons] at h2
  exact ⟨fun hm => hd hm (List.mem_cons_self _ _), h2.1⟩

lemma filterMap_keys_sublist (l : DMap) (c : NodeId → Bool)
    (gv : NodeId → Nat → Nat) :
    ((l.filterMap (fun q =>
        if c q.1 then some (q.1, gv q.1 q.2) else none)).map Prod.fst).Sublist
      (l.map Prod.fst) := by
  induction l with
  | nil => simp
  | cons q t ih =>
    rw [List.filterMap_cons]
    by_cases hc : c q.1
    · rw [if_pos hc]
      simp only [List.map_cons]
      exact List.Sublist.cons₂ _ ih
    · rw [if_neg hc]
      simp only [List.map_cons]
      exact List.Sublist.cons _ ih

lemma getFirstCommonNode_ok {g : Graph} {f : Nat} {n : NodeId}
    {r : Option NodeId} (h : getFirstCommonNode g f n = Except.ok r) :
    ∃ ds, getNodeDepths g f n 0 = Except.ok ds ∧
      r = (argminNonzero (foldCommon ds)).map Prod.fst := by
  unfold getFirstCommonNode at h
  split at h
  · exact absurd h (by simp)
  · rename_i ds hd
    injection h with h'
    exact ⟨ds, hd, h'.symm⟩

/-! ## The transformer only appends to its parts accumulator -/

lemma transformLoop_succ (g : Graph) (f : Nat) (stop curr : Option NodeId)
    (parts : List Seq) :
    transformLoop g (f + 1) stop curr parts =
      match curr with
      | none => Except.error TErr.key
      | some i =>
        match alookup g i with
        | none => Except.error TErr.key
        | some node =>
          match node.getNextNodesFlat with
          | [] => Except.ok parts
          | [n2] =>
            if some n2 = stop then Except.ok parts
            else transformLoop g f stop (some n2) (parts ++ [Seq.leaf n2])
          | n2 :: n3 :: more =>
            if node.next_nodes.length = 1 then
              match getFirstCommonNode g f i with
              | Except.error e => Except.error e
              | Except.ok j =>
                match parallelPaths g f stop j (n2 :: n3 :: more) with
                | Except.error e => Except.error e
                | Except.ok subs =>
                  transformLoop g f stop j (parts ++ [Seq.list subs])
            else
              match getFirstCommonNode g f i with
              | Except.error e => Except.error e
              | Except.ok j =>
                match branchEntries g f stop j node.next_nodes with
                | Except.error e => Except.error e
                | Except.ok entries =>
                  match j with
                  | none => Except.ok (parts ++ [Seq.branches entries])
                  | some jj =>
                    if some jj = stop then
                      Except.ok (parts ++ [Seq.branches entries])
                    else
                      transformLoop g f stop (some jj)
                        (parts ++ [Seq.branches entries, Seq.leaf jj]) := rfl

lemma transformLoop_extends : ∀ (f : Nat) (g : Graph) (stop curr : Option NodeId)
    (parts out : List Seq), transformLoop g f stop curr parts = Except.ok out →
    ∃ r, out = parts ++ r := by
  intro f
  induction f with
  | zero =>
    intro g stop curr parts out h
    simp [transformLoop] at h
  | succ f ih =>
    intro g stop curr parts out h
    rw [transformLoop_succ] at h
    split at h
    · exact absurd h (by simp)
    · split at h
      · exact absurd h (by simp)
      · split at h
        · injection h with h'
          exact ⟨[], by rw [← h', List.append_nil]⟩
        · split at h
          · injection h with h'
            exact ⟨[], by rw [← h', List.append_nil]⟩
          · obtain ⟨r, hr⟩ := ih _ _ _ _ _ h
            exact ⟨_, by rw [hr, List.append_assoc]⟩
        · split at h
          · split at h
            · exact absurd h (by simp)
            · split at h
              · exact absurd h (by simp)
              · obtain ⟨r, hr⟩ := ih _ _ _ _ _ h
                exact ⟨_, by rw [hr, List.append_assoc]⟩
          · split at h
            · exact absurd h (by simp)
            · split at h
              · exact absurd h (by simp)
              · split at h
                · injection h with h'
                  exact ⟨_, h'.symm⟩
                · split at h
                  · injection h with h'
                    exact ⟨_, h'.symm⟩
                  · obtain ⟨r, hr⟩ := ih _ _ _ _ _ h
                    exact ⟨_, by rw [hr, List.append_assoc]⟩

lemma transformGS_head {g : Graph} {f : Nat} {n : NodeId} {stop : Option NodeId}
    {out : List Seq} (h : transformGS g f n stop = Except.ok out) :
    out.head? = some (Seq.leaf n) := by
  cases f with
  | zero => simp [transformGS] at h
  | succ f =>
    have h2 : transformLoop g f stop (some n) [Seq.leaf n] = Except.ok out := h
    obtain ⟨r, hr⟩ := transformLoop_extends f g stop (some n) [Seq.leaf n] out h2
    rw [hr]
    rfl

/-! ## Claim theorems -/

/-- C3: for every graph on which the depth computation completes, every
diverging node n all of whose complete paths pass through J, J distinct
from n, such that every other node common to all complete paths occurs
strictly after J on every complete path, the join-point resolver returns
exactly J. -/
theorem c3_resolver_returns_join (g : Graph) (f : Nat) (n J : NodeId)
    (node : GNode) (r : Option NodeId)
    (hn : alookup g n = some node)
    (hdiv : 2 ≤ node.getNextNodesFlat.length)
    (hs : getFirstCommonNode g f n = Except.ok r)
    (hex : ∃ p, CPath g n p)
    (hJn : J ≠ n)
    (hall : ∀ p, CPath g n p → J ∈ p)
    (hmin : ∀ K, K ≠ n → K ≠ J → (∀ p, CPath g n p → K ∈ p) →
      ∀ p, CPath g n p → idxOf p J < idxOf p K) :
    r = some J := by
  obtain ⟨ds, hd, hr⟩ := getFirstCommonNode_ok hs
  have hA : ∀ m ∈ ds, ∃ p, CPath g n p ∧ m = pathMap p 0 :=
    fun m hm => (getNodeDepths_char hd m).mp hm
  have hB : ∀ p, CPath g n p → pathMap p 0 ∈ ds :=
    fun p hp => (getNodeDepths_char hd _).mpr ⟨p, hp, rfl⟩
  have hsucc : Succeeds g f n := ⟨0, ds, hd⟩
  have hnd : ∀ p, CPath g n p → p.Nodup := fun p hp => cpath_nodup hp f hsucc
  have hlookn : ∀ m ∈ ds, alookup m n = some 0 := by
    intro m hm
    obtain ⟨p, hp, rfl⟩ := hA m hm
    obtain ⟨t, rfl⟩ := cpath_head hp
    simp [pathMap, alookup]
  have hfold : foldCommon ds = commonSpec ds :=
    foldCommon_eq_commonSpec n (fun m hm => by rw [hlookn m hm]; rfl)
  obtain ⟨p0, hp0⟩ := hex
  have hm0mem := hB p0 hp0
  obtain ⟨m0, rest, rfl⟩ : ∃ m0 rest, ds = m0 :: rest := by
    cases ds with
    | nil => exact absurd hm0mem (by simp)
    | cons m0 rest => exact ⟨m0, rest, rfl⟩
  obtain ⟨pm0, hpm0, hm0eq⟩ := hA m0 (List.mem_cons_self _ _)
  have hcspec : commonSpec (m0 :: rest) = m0.filterMap (fun q =>
      if inAllKeys q.1 rest then some (q.1, maxOver q.1 q.2 rest) else none) :=
    rfl
  have hinJ : inAllKeys J rest = true := by
    rw [inAllKeys, List.all_eq_true]
    intro m hm
    obtain ⟨p, hp, hmeq⟩ := hA m (List.mem_cons_of_mem _ hm)
    rw [hmeq, alookup_pathMap_of_mem (hall p hp) 0]
    rfl
  have hJpm0 : J ∈ pm0 := hall pm0 hpm0
  have hJm0 : (J, idxOf pm0 J) ∈ m0 := by
    rw [hm0eq]
    have h2 := mem_pathMap_of_mem hJpm0 0
    simpa using h2
  have heJ : (J, maxOver J (idxOf pm0 J) rest) ∈ commonSpec (m0 :: rest) := by
    rw [hcspec]
    exact List.mem_filterMap.mpr ⟨(J, idxOf pm0 J), hJm0, by rw [if_pos hinJ]⟩
  obtain ⟨c1, c2, hsplit⟩ := List.append_of_mem heJ
  have hpm0nd : pm0.Nodup := hnd pm0 hpm0
  have hkeysnd : ((commonSpec (m0 :: rest)).map Prod.fst).Nodup := by
    rw [hcspec]
    refine List.Nodup.sublist
      (filterMap_keys_sublist m0 (fun x => inAllKeys x rest)
        (fun x v => maxOver x v rest)) ?_
    rw [hm0eq, pathMap_fst]
    exact hpm0nd
  have hkeysnd2 := hsplit ▸ hkeysnd
  rw [List.map_append, List.map_cons] at hkeysnd2
  have hmid := nodup_middle hkeysnd2
  have hentry : ∀ q ∈ commonSpec (m0 :: rest), ∃ ix, (q.1, ix) ∈ m0 ∧
      inAllKeys q.1 rest = true ∧ q.2 = maxOver q.1 ix rest := by
    intro q hq
    rw [hcspec] at hq
    obtain ⟨a, ha, hfa⟩ := List.mem_filterMap.mp hq
    by_cases hin : inAllKeys a.1 rest
    · rw [if_pos hin] at hfa
      injection hfa with h1
      subst h1
      exact ⟨a.2, by simpa using ha, hin, rfl⟩
    · rw [if_neg hin] at hfa
      exact absurd hfa (by simp)
  have hval : ∀ x ix, (x, ix) ∈ m0 → ix = idxOf pm0 x := by
    intro x ix hmem
    rw [hm0eq] at hmem
    have h2 := pathMap_mem_val hpm0nd hmem
    simpa using h2
  have hcomm : ∀ x ix, (x, ix) ∈ m0 → inAllKeys x rest = true →
      ∀ p, CPath g n p → x ∈ p := by
    intro x ix hxm0 hin p hp
    have hpmem := hB p hp
    rcases List.mem_cons.mp hpmem with hpe | hpr
    · have hppm0 : p = pm0 :=
        pathMap_inj (show pathMap p 0 = pathMap pm0 0 by rw [hpe, hm0eq])
      rw [hm0eq] at hxm0
      rw [hppm0]
      exact pathMap_mem_key hxm0
    · rw [inAllKeys, List.all_eq_true] at hin
      have h2 := hin (pathMap p 0) hpr
      obtain ⟨v, hv⟩ := Option.isSome_iff_exists.mp h2
      exact mem_of_alookup_pathMap hv
  have hidxJ1 : 1 ≤ idxOf pm0 J := by
    obtain ⟨t0, ht0⟩ := cpath_head hpm0
    rw [ht0, idxOf, if_neg (fun he => hJn he.symm)]
    omega
  have hvJne : maxOver J (idxOf pm0 J) rest ≠ 0 := by
    have h2 := maxOver_ge_init J (idxOf pm0 J) rest
    omega
  have hbound : ∀ q ∈ commonSpec (m0 :: rest), q.1 ≠ J → q.2 ≠ 0 →
      maxOver J (idxOf pm0 J) rest < q.2 := by
    intro q hq hqJ hq0
    obtain ⟨ix, hqm0, hqin, hqval⟩ := hentry q hq
    have hix : ix = idxOf pm0 q.1 := hval q.1 ix hqm0
    by_cases hqn : q.1 = n
    · exfalso
      apply hq0
      rw [hqval, hix, hqn]
      have hidxn : idxOf pm0 n = 0 := by
        obtain ⟨t0, ht0⟩ := cpath_head hpm0
        rw [ht0, idxOf, if_pos rfl]
      rw [hidxn]
      apply maxOver_zero
      intro m hm
      obtain ⟨p, hp, hmeq⟩ := hA m (List.mem_cons_of_mem _ hm)
      obtain ⟨t, ht⟩ := cpath_head hp
      rw [hmeq, ht]
      simp [depthIn, pathMap, alookup]
    · have hqcomm : ∀ p, CPath g n p → q.1 ∈ p := hcomm q.1 ix hqm0 hqin
      have hlt : ∀ p, CPath g n p → idxOf p J < idxOf p q.1 :=
        hmin q.1 hqn hqJ hqcomm
      rw [hqval, hix]
      rcases maxOver_attain J (idxOf pm0 J) rest with hv | ⟨mstar, hmstar, hv⟩
      · have h1 : idxOf pm0 J < idxOf pm0 q.1 := hlt pm0 hpm0
        have h2 : idxOf pm0 q.1 ≤ maxOver q.1 (idxOf pm0 q.1) rest :=
          maxOver_ge_init _ _ _
        omega
      · obtain ⟨pstar, hpstar, hmeq⟩ := hA mstar (List.mem_cons_of_mem _ hmstar)
        have hJp : J ∈ pstar := hall pstar hpstar
        have hqp : q.1 ∈ pstar := hqcomm pstar hpstar
        have hdJ : depthIn mstar J = idxOf pstar J := by
          rw [hmeq, depthIn, alookup_pathMap_of_mem hJp 0]
          simp
        have hdq : depthIn mstar q.1 = idxOf pstar q.1 := by
          rw [hmeq, depthIn, alookup_pathMap_of_mem hqp 0]
          simp
        have h1 : idxOf pstar J < idxOf pstar q.1 := hlt pstar hpstar
        have h2 : depthIn mstar q.1 ≤ maxOver q.1 (idxOf pm0 q.1) rest :=
          maxOver_ge_mem hmstar _ _
        omega
  have hc1 : ∀ q ∈ c1, q.2 ≠ 0 → maxOver J (idxOf pm0 J) rest < q.2 := by
    intro q hq hq0
    have hqmem : q ∈ commonSpec (m0 :: rest) := by
      rw [hsplit]
      exact List.mem_append_left _ hq
    have hqJ : q.1 ≠ J := by
      intro he
      apply hmid.1
      show J ∈ List.map Prod.fst c1
      rw [← he]
      exact List.mem_map_of_mem Prod.fst hq
    exact hbound q hqmem hqJ hq0
  have hc2 : ∀ q ∈ c2, q.2 ≠ 0 → maxOver J (idxOf pm0 J) rest ≤ q.2 := by
    intro q hq hq0
    have hqmem : q ∈ commonSpec (m0 :: rest) := by
      rw [hsplit]
      exact List.mem_append_right _ (List.mem_cons_of_mem _ hq)
    have hqJ : q.1 ≠ J := by
      intro he
      apply hmid.2
      show J ∈ List.map Prod.fst c2
      rw [← he]
      exact List.mem_map_of_mem Prod.fst hq
    exact le_of_lt (hbound q hqmem hqJ hq0)
  have hargmin : argminNonzero (commonSpec (m0 :: rest)) =
      some (J, maxOver J (idxOf pm0 J) rest) :=
    argminNonzero_reaches hsplit hvJne hc1 hc2
  rw [hr, hfold, hargmin]
  rfl

/-- C5: for a completed depth computation the resolver first merges the
depth maps exactly as described, intersecting their key sets and keeping
the maximum depth per surviving key in first-map order, then returns the
first key attaining the smallest nonzero merged depth, and the absent
sentinel exactly when every merged depth is zero. -/
theorem c5_resolver_merge_argmin (g : Graph) (f : Nat) (n : NodeId)
    (ds : List DMap) (hd : getNodeDepths g f n 0 = Except.ok ds) :
    foldCommon ds = commonSpec ds ∧
    (getFirstCommonNode g f n = Except.ok none ↔
      ∀ q ∈ commonSpec ds, q.2 = 0) ∧
    (∀ k, getFirstCommonNode g f n = Except.ok (some k) ↔
      ∃ v c1 c2, commonSpec ds = c1 ++ (k, v) :: c2 ∧ v ≠ 0 ∧
        (∀ q ∈ c1, q.2 ≠ 0 → v < q.2) ∧ (∀ q ∈ c2, q.2 ≠ 0 → v ≤ q.2)) := by
  have hlookn : ∀ m ∈ ds, alookup m n = some 0 := by
    intro m hm
    obtain ⟨p, hp, rfl⟩ := (getNodeDepths_char hd m).mp hm
    obtain ⟨t, rfl⟩ := cpath_head hp
    simp [pathMap, alookup]
  have hfold : foldCommon ds = commonSpec ds :=
    foldCommon_eq_commonSpec n (fun m hm => by rw [hlookn m hm]; rfl)
  have hgf0 : getFirstCommonNode g f n =
      Except.ok ((argminNonzero (foldCommon ds)).map Prod.fst) := by
    unfold getFirstCommonNode
    rw [hd]
  have hgf : getFirstCommonNode g f n =
      Except.ok ((argminNonzero (commonSpec ds)).map Prod.fst) := by
    rw [hgf0, hfold]
  refine ⟨hfold, ?_, ?_⟩
  · rw [hgf]
    constructor
    · intro h
      injection h with h'
      have h2 : argminNonzero (commonSpec ds) = none :=
        Option.map_eq_none'.mp h'
      have h3 : List.foldl argStep none (commonSpec ds) = none := h2
      exact ((foldl_argStep_none_iff _ none).mp h3).2
    · intro hz
      have h2 : List.foldl argStep none (commonSpec ds) = none :=
        (foldl_argStep_none_iff _ none).mpr ⟨rfl, hz⟩
      have h3 : argminNonzero (commonSpec ds) = none := h2
      rw [h3]
      rfl
  · intro k
    rw [hgf]
    constructor
    · intro h
      injection h with h'
      obtain ⟨pair, hpair, hfst⟩ := Option.map_eq_some'.mp h'
      have hpair2 : List.foldl argStep none (commonSpec ds) = some pair := hpair
      rcases foldl_argStep_some _ none pair hpair2 with ⟨habs, h2⟩ |
        ⟨c1, c2, heq, hp0, h1, h2, h3⟩
      · exact absurd habs (by simp)
      · obtain ⟨k', v⟩ := pair
        subst hfst
        exact ⟨v, c1, c2, heq, hp0, h1, h2⟩
    · rintro ⟨v, c1, c2, hceq, hv0, h1, h2⟩
      have h3 : argminNonzero (commonSpec ds) = some (k, v) :=
        argminNonzero_reaches hceq hv0 h1 h2
      rw [h3]
      rfl

/-- C4: the depth-map computation returns the single map with the node at
its starting depth for a terminal node, and in general yields one map per
complete path from the node: the maps of a successful computation are
exactly the path maps of the complete paths, distinct paths give distinct
maps, and a path map records every node of its path at its distance from
the start offset by the starting depth. -/
theorem c4_node_depths_paths (g : Graph) (f : Nat) (n : NodeId) (d : Nat)
    (node : GNode) (ds : List DMap)
    (hn : alookup g n = some node)
    (h : getNodeDepths g f n d = Except.ok ds) :
    (node.next_nodes = [] → ds = [[(n, d)]]) ∧
    (∀ m, m ∈ ds ↔ ∃ p, CPath g n p ∧ m = pathMap p d) ∧
    (∀ p q : List NodeId, ∀ d' : Nat, pathMap p d' = pathMap q d' → p = q) ∧
    (∀ p : List NodeId, ∀ x, x ∈ p →
      alookup (pathMap p d) x = some (d + idxOf p x)) := by
  refine ⟨?_, getNodeDepths_char h, fun p q d' he => pathMap_inj he,
    fun p x hx => alookup_pathMap_of_mem hx d⟩
  intro hemp
  cases f with
  | zero => simp [getNodeDepths] at h
  | succ f =>
    rw [getNodeDepths_succ] at h
    split at h
    · exact absurd h (by simp)
    · rename_i node2 hl2
      rw [hn] at hl2
      injection hl2 with he
      subst he
      rw [if_pos (List.isEmpty_iff.mpr hemp)] at h
      injection h with h'
      exact h'.symm

/-- C9: a successful internal transform call on a node and a stop boundary
returns a nonempty ordered sequence whose first element is the leaf of the
node the call was invoked on. -/
theorem c9_subsequence_head (g : Graph) (f : Nat) (n : NodeId)
    (stop : Option NodeId) (out : List Seq)
    (h : transformGS g f n stop = Except.ok out) :
    out.head? = some (Seq.leaf n) :=
  transformGS_head h

lemma branchPaths_nil (g : Graph) (f : Nat) (stop j : Option NodeId) :
    branchPaths g (f + 1) stop j [] = Except.ok [] := rfl

lemma branchPaths_cons (g : Graph) (f : Nat) (stop j : Option NodeId)
    (x : NodeId) (rest : List NodeId) :
    branchPaths g (f + 1) stop j (x :: rest) =
      if some x = stop then branchPaths g f stop j rest
      else if some x = j then
        match branchPaths g f stop j rest with
        | Except.error e => Except.error e
        | Except.ok ts => Except.ok (Seq.list [] :: ts)
      else
        match transformGS g f x j with
        | Except.error e => Except.error e
        | Except.ok t =>
          match branchPaths g f stop j rest with
          | Except.error e => Except.error e
          | Except.ok ts => Except.ok (Seq.list t :: ts) := rfl

lemma branchEntries_cons (g : Graph) (f : Nat) (stop j : Option NodeId)
    (k : Label) (v : List NodeId) (rest : List (Label × List NodeId)) :
    branchEntries g (f + 1) stop j ((k, v) :: rest) =
      match branchPaths g f stop j v with
      | Except.error e => Except.error e
      | Except.ok paths =>
        match branchEntries g f stop j rest with
        | Except.error e => Except.error e
        | Except.ok restE =>
          match paths with
          | [] => Except.ok restE
          | [p] => Except.ok ((k, p) :: restE)
          | _ => Except.ok ((k, Seq.list paths) :: restE) := rfl

lemma branchPaths_all_stop : ∀ (f : Nat) (g : Graph) (stop j : Option NodeId)
    (v : List NodeId) (paths : List Seq), (∀ x ∈ v, some x = stop) →
    branchPaths g f stop j v = Except.ok paths → paths = [] := by
  intro f
  induction f with
  | zero =>
    intro g stop j v paths hallstop h
    simp [branchPaths] at h
  | succ f ih =>
    intro g stop j v paths hallstop h
    cases v with
    | nil =>
      rw [branchPaths_nil] at h
      injection h with h'
      exact h'.symm
    | cons x rest =>
      rw [branchPaths_cons, if_pos (hallstop x (List.mem_cons_self _ _))] at h
      exact ih g stop j rest paths
        (fun y hy => hallstop y (List.mem_cons_of_mem _ hy)) h

lemma branchPaths_empty_mem : ∀ (f : Nat) (g : Graph) (stop j : Option NodeId)
    (v : List NodeId) (paths : List Seq),
    branchPaths g f stop j v = Except.ok paths → Seq.list [] ∈ paths →
    ∃ x, x ∈ v ∧ some x = j ∧ some x ≠ stop := by
  intro f
  induction f with
  | zero =>
    intro g stop j v paths h hm
    simp [branchPaths] at h
  | succ f ih =>
    intro g stop j v paths h hm
    cases v with
    | nil =>
      rw [branchPaths_nil] at h
      injection h with h'
      subst h'
      cases hm
    | cons x rest =>
      rw [branchPaths_cons] at h
      by_cases hstop : some x = stop
      · rw [if_pos hstop] at h
        obtain ⟨y, hy, hyj, hys⟩ := ih g stop j rest paths h hm
        exact ⟨y, List.mem_cons_of_mem _ hy, hyj, hys⟩
      · rw [if_neg hstop] at h
        by_cases hj : some x = j
        · rw [if_pos hj] at h
          split at h
          · exact absurd h (by simp)
          · rename_i ts hts
            injection h with h'
            subst h'
            exact ⟨x, List.mem_cons_self _ _, hj, hstop⟩
        · rw [if_neg hj] at h
          split at h
          · exact absurd h (by simp)
          · rename_i t ht
            split at h
            · exact absurd h (by simp)
            · rename_i ts hts
              injection h with h'
              subst h'
              rcases List.mem_cons.mp hm with he | hmem
              · exfalso
                injection he with ht'
                have h2 := transformGS_head ht
                rw [← ht'] at h2
                simp at h2
              · obtain ⟨y, hy, hyj, hys⟩ := ih g stop j rest ts hts hmem
                exact ⟨y, List.mem_cons_of_mem _ hy, hyj, hys⟩

/-- C10: a branch label all of whose targets equal the stop boundary
yields an empty paths list and so contributes no entry at all to the
labeled branches mapping, and an explicit empty-sequence path arises only
from a target that equals the join point and differs from stop. -/
theorem c10_branch_entry_omission :
    (∀ (g : Graph) (f : Nat) (stop j : Option NodeId) (k : Label)
      (v : List NodeId) (rest : List (Label × List NodeId))
      (paths : List Seq), (∀ x ∈ v, some x = stop) →
      branchPaths g f stop j v = Except.ok paths →
      paths = [] ∧ branchEntries g (f + 1) stop j ((k, v) :: rest) =
        branchEntries g f stop j rest) ∧
    (∀ (g : Graph) (f : Nat) (stop j : Option NodeId) (v : List NodeId)
      (paths : List Seq), branchPaths g f stop j v = Except.ok paths →
      Seq.list [] ∈ paths → ∃ x, x ∈ v ∧ some x = j ∧ some x ≠ stop) := by
  constructor
  · intro g f stop j k v rest paths hallstop hbp
    have hnil : paths = [] := branchPaths_all_stop f g stop j v paths hallstop hbp
    subst hnil
    refine ⟨rfl, ?_⟩
    rw [branchEntries_cons, hbp]
    cases hbe : branchEntries g f stop j rest
    · rfl
    · rfl
  · exact fun g f stop j v paths h hm =>
      branchPaths_empty_mem f g stop j v paths h hm

/-- C8: the code renderer on a leaf raises exactly when the referenced
task's kind lies outside the closed set of start, title, regular, playbook
and condition, and for each kind inside the set returns the corresponding
synthetic statement. -/
theorem c8_render_leaf_kinds (tasks : List (NodeId × Task)) (tid : NodeId)
    (task : Task) (h : alookup tasks tid = some task) :
    (renderStr tasks tid = Except.error RenderErr.unknownKind ↔
      ¬(task.type = "start" ∨ task.type = "title" ∨ task.type = "regular" ∨
        task.type = "playbook" ∨ task.type = "condition")) ∧
    (task.type = "start" → renderStr tasks tid =
      Except.ok (PyStmt.expr (PyExpr.constant (task.id ++ " - start")))) ∧
    (task.type = "title" → renderStr tasks tid =
      Except.ok (PyStmt.expr (PyExpr.constant (task.id ++ " - " ++ task.name)))) ∧
    (task.type = "regular" ∨ task.type = "playbook" → renderStr tasks tid =
      Except.ok (PyStmt.expr (PyExpr.call (PyExpr.name ("task_" ++ task.id))
        [PyExpr.constant task.name]))) ∧
    (task.type = "condition" → renderStr tasks tid =
      Except.ok (PyStmt.assign [PyExpr.name "condition_res"]
        (PyExpr.call (PyExpr.name ("condition_" ++ task.id))
          [PyExpr.constant task.name]))) := by
  have hstart : task.type = "start" → renderStr tasks tid =
      Except.ok (PyStmt.expr (PyExpr.constant (task.id ++ " - start"))) := by
    intro ht
    simp [renderStr, h, ht]
  have htitle : task.type = "title" → renderStr tasks tid =
      Except.ok (PyStmt.expr (PyExpr.constant (task.id ++ " - " ++ task.name))) := by
    intro ht
    simp [renderStr, h, ht]
  have hreg : task.type = "regular" ∨ task.type = "playbook" →
      renderStr tasks tid = Except.ok (PyStmt.expr
        (PyExpr.call (PyExpr.name ("task_" ++ task.id))
          [PyExpr.constant task.name])) := by
    rintro (ht | ht) <;> simp [renderStr, h, ht]
  have hcond : task.type = "condition" → renderStr tasks tid =
      Except.ok (PyStmt.assign [PyExpr.name "condition_res"]
        (PyExpr.call (PyExpr.name ("condition_" ++ task.id))
          [PyExpr.constant task.name])) := by
    intro ht
    simp [renderStr, h, ht]
  refine ⟨⟨?_, ?_⟩, hstart, htitle, hreg, hcond⟩
  · intro herr hmem
    rcases hmem with ht | ht | ht | ht | ht
    · rw [hstart ht] at herr
      exact absurd herr (by simp)
    · rw [htitle ht] at herr
      exact absurd herr (by simp)
    · rw [hreg (Or.inl ht)] at herr
      exact absurd herr (by simp)
    · rw [hreg (Or.inr ht)] at herr
      exact absurd herr (by simp)
    · rw [hcond ht] at herr
      exact absurd herr (by simp)
  · intro hnmem
    simp only [not_or] at hnmem
    obtain ⟨h1, h2, h3, h4, h5⟩ := hnmem
    simp [renderStr, h, h1, h2, h3, h4, h5]

/-- C1: at the single-label fan-out scenario where A splits to B and C and
both lead to the terminal join D, the transformer returns the ordered
sequence of the leaf A followed by the two parallel sub-flows, without the
join node D: the loop resumes at D but the single-label branch never
appends the join as a leaf, so the output differs from the expected value
that ends with D. -/
theorem c1_split_join_output :
    transform gSplitJoin 32 nSplitA = Except.ok
      [Seq.leaf "A", Seq.list [Seq.list [Seq.leaf "B"], Seq.list [Seq.leaf "C"]]] ∧
    transform gSplitJoin 32 nSplitA ≠ Except.ok
      [Seq.leaf "A", Seq.list [Seq.list [Seq.leaf "B"], Seq.list [Seq.leaf "C"]],
        Seq.leaf "D"] := by
  refine ⟨rfl, ?_⟩
  intro hcontra
  rw [show transform gSplitJoin 32 nSplitA = Except.ok
    [Seq.leaf "A", Seq.list [Seq.list [Seq.leaf "B"], Seq.list [Seq.leaf "C"]]]
    from rfl] at hcontra
  simp at hcontra

/-- C2: at the single-label fan-out whose branches never reconverge, the
resolver returns the absent sentinel, and the transformer then resumes its
loop at the sentinel and looks it up in the node dictionary, failing with
a key error instead of terminating normally. -/
theorem c2_split_no_join_keyerror :
    getFirstCommonNode gSplitNoJoin 32 "A" = Except.ok none ∧
    transform gSplitNoJoin 32 nSplitA = Except.error TErr.key :=
  ⟨rfl, rfl⟩

/-- C6: at the labeled diamond where A branches on yes to B and no to C
and both lead to the terminal D, the transformer returns the leaf A, the
labeled branches mapping each label to its single path not wrapped in a
further list, and the join node D appended as a leaf. -/
theorem c6_labeled_diamond :
    transform gDiamond 32 nCondA = Except.ok
      [Seq.leaf "A",
        Seq.branches [("yes", Seq.list [Seq.leaf "B"]),
          ("no", Seq.list [Seq.leaf "C"])],
        Seq.leaf "D"] := rfl

/-- C7: at the labeled branches from A to distinct terminals B and C with
no shared descendant, the resolver returns the absent sentinel and the
transformer returns the leaf A followed by the labeled branches with no
trailing resumed node. -/
theorem c7_branch_no_rejoin :
    getFirstCommonNode gCondNoJoin 32 "A" = Except.ok none ∧
    transform gCondNoJoin 32 nCondA = Except.ok
      [Seq.leaf "A",
        Seq.branches [("yes", Seq.list [Seq.leaf "B"]),
          ("no", Seq.list [Seq.leaf "C"])]] :=
  ⟨rfl, rfl⟩

/-! ## Path enumeration on the example graph, for the witnesses -/

lemma gSplitJoin_paths_D : ∀ p, CPath gSplitJoin "D" p → p = ["D"] := by
  intro p hp
  rcases cpath_inversion hp with ⟨node, hl, he, rfl⟩ |
    ⟨node, n2, p', hl, hm, hp', rfl⟩
  · rfl
  · rw [show alookup gSplitJoin "D" = some nTermD from rfl] at hl
    injection hl with he2
    subst he2
    simp [nTermD, GNode.getNextNodesFlat] at hm

lemma gSplitJoin_paths_B : ∀ p, CPath gSplitJoin "B" p → p = ["B", "D"] := by
  intro p hp
  rcases cpath_inversion hp with ⟨node, hl, he, rfl⟩ |
    ⟨node, n2, p', hl, hm, hp', rfl⟩
  · rw [show alookup gSplitJoin "B" = some nChainB from rfl] at hl
    injection hl with he2
    subst he2
    simp [nChainB] at he
  · rw [show alookup gSplitJoin "B" = some nChainB from rfl] at hl
    injection hl with he2
    subst he2
    simp only [nChainB, GNode.getNextNodesFlat] at hm
    simp at hm
    subst hm
    rw [gSplitJoin_paths_D p' hp']

lemma gSplitJoin_paths_C : ∀ p, CPath gSplitJoin "C" p → p = ["C", "D"] := by
  intro p hp
  rcases cpath_inversion hp with ⟨node, hl, he, rfl⟩ |
    ⟨node, n2, p', hl, hm, hp', rfl⟩
  · rw [show alookup gSplitJoin "C" = some nChainC from rfl] at hl
    injection hl with he2
    subst he2
    simp [nChainC] at he
  · rw [show alookup gSplitJoin "C" = some nChainC from rfl] at hl
    injection hl with he2
    subst he2
    simp only [nChainC, GNode.getNextNodesFlat] at hm
    simp at hm
    subst hm
    rw [gSplitJoin_paths_D p' hp']

lemma gSplitJoin_paths_A : ∀ p, CPath gSplitJoin "A" p →
    p = ["A", "B", "D"] ∨ p = ["A", "C", "D"] := by
  intro p hp
  rcases cpath_inversion hp with ⟨node, hl, he, rfl⟩ |
    ⟨node, n2, p', hl, hm, hp', rfl⟩
  · rw [show alookup gSplitJoin "A" = some nSplitA from rfl] at hl
    injection hl with he2
    subst he2
    simp [nSplitA] at he
  · rw [show alookup gSplitJoin "A" = some nSplitA from rfl] at hl
    injection hl with he2
    subst he2
    simp only [nSplitA, GNode.getNextNodesFlat] at hm
    simp at hm
    rcases hm with rfl | rfl
    · left
      rw [gSplitJoin_paths_B p' hp']
    · right
      rw [gSplitJoin_paths_C p' hp']

lemma gSplitJoin_cpath_ABD : CPath gSplitJoin "A" ["A", "B", "D"] := by
  refine CPath.step "A" nSplitA "B" ["B", "D"] rfl ?_ ?_
  · simp [nSplitA, GNode.getNextNodesFlat]
  · refine CPath.step "B" nChainB "D" ["D"] rfl ?_ ?_
    · simp [nChainB, GNode.getNextNodesFlat]
    · exact CPath.term "D" nTermD rfl rfl

lemma gSplitJoin_cpath_ACD : CPath gSplitJoin "A" ["A", "C", "D"] := by
  refine CPath.step "A" nSplitA "C" ["A", "C", "D"].tail rfl ?_ ?_
  · simp [nSplitA, GNode.getNextNodesFlat]
  · refine CPath.step "C" nChainC "D" ["D"] rfl ?_ ?_
    · simp [nChainC, GNode.getNextNodesFlat]
    · exact CPath.term "D" nTermD rfl rfl

/-! ## Witnesses -/

/-- Witness for C3 at the unlabeled fan-out rejoining at D. -/
theorem c3_witness : (some "D" : Option NodeId) = some "D" := by
  have hall : ∀ p, CPath gSplitJoin "A" p → "D" ∈ p := by
    intro p hp
    rcases gSplitJoin_paths_A p hp with rfl | rfl
    · simp
    · simp
  have hmin : ∀ K, K ≠ "A" → K ≠ "D" →
      (∀ p, CPath gSplitJoin "A" p → K ∈ p) →
      ∀ p, CPath gSplitJoin "A" p → idxOf p "D" < idxOf p K := by
    intro K hKA hKD hKcomm p hp
    have h1 := hKcomm _ gSplitJoin_cpath_ABD
    have h2 := hKcomm _ gSplitJoin_cpath_ACD
    simp at h1 h2
    rcases h1 with rfl | rfl | rfl
    · exact absurd rfl hKA
    · simp at h2
    · exact absurd rfl hKD
  exact c3_resolver_returns_join gSplitJoin 32 "A" "D" nSplitA (some "D")
    rfl (by decide) rfl ⟨["A", "B", "D"], gSplitJoin_cpath_ABD⟩
    (by decide) hall hmin

/-- Witness for C4 at the unlabeled fan-out graph. -/
theorem c4_witness :
    ([("A", 0), ("B", 1), ("D", 2)] : DMap) ∈
        ([[("A", 0), ("B", 1), ("D", 2)], [("A", 0), ("C", 1), ("D", 2)]] :
          List DMap) ↔
      ∃ p, CPath gSplitJoin "A" p ∧
        ([("A", 0), ("B", 1), ("D", 2)] : DMap) = pathMap p 0 :=
  (c4_node_depths_paths gSplitJoin 32 "A" 0 nSplitA
    [[("A", 0), ("B", 1), ("D", 2)], [("A", 0), ("C", 1), ("D", 2)]]
    rfl rfl).2.1 [("A", 0), ("B", 1), ("D", 2)]

/-- Witness for C5 at the unlabeled fan-out graph. -/
theorem c5_witness :
    foldCommon [[("A", 0), ("B", 1), ("D", 2)], [("A", 0), ("C", 1), ("D", 2)]] =
      commonSpec [[("A", 0), ("B", 1), ("D", 2)], [("A", 0), ("C", 1), ("D", 2)]] :=
  (c5_resolver_merge_argmin gSplitJoin 32 "A"
    [[("A", 0), ("B", 1), ("D", 2)], [("A", 0), ("C", 1), ("D", 2)]] rfl).1

/-- Witness for C8 at a two-task table. -/
theorem c8_witness :
    renderStr tasksEx "1" =
      Except.ok (PyStmt.expr (PyExpr.constant ("1" ++ " - start"))) ∧
    renderStr tasksEx "2" = Except.error RenderErr.unknownKind :=
  ⟨(c8_render_leaf_kinds tasksEx "1" ⟨"start", "1", "Start"⟩ rfl).2.1 rfl,
   (c8_render_leaf_kinds tasksEx "2" ⟨"mystery", "2", "X"⟩ rfl).1.mpr
     (by decide)⟩

/-- Witness for C9 at the sub-flow from B bounded by D. -/
theorem c9_witness :
    ([Seq.leaf "B"] : List Seq).head? = some (Seq.leaf "B") :=
  c9_subsequence_head gSplitJoin 8 "B" (some "D") [Seq.leaf "B"] rfl

/-- Witness for C10: an all-stop label is omitted and an empty branch path
comes from a join-point target. -/
theorem c10_witness :
    (([] : List Seq) = [] ∧
      branchEntries gSplitJoin 3 (some "S") none [("k", ["S"])] =
        branchEntries gSplitJoin 2 (some "S") none []) ∧
    (∃ x, x ∈ ["B"] ∧ some x = some "B" ∧ some x ≠ (none : Option NodeId)) :=
  ⟨c10_branch_entry_omission.1 gSplitJoin 2 (some "S") none "k" ["S"] [] []
      (by simp) rfl,
   c10_branch_entry_omission.2 gSplitJoin 4 none (some "B") ["B"]
      [Seq.list []] rfl (by simp)⟩

end Playbook
